import Mathlib

/-!
Shallow embedding of the wikisophia/go-environment-configs library.

The Go sources walk a (nested) struct by reflection, derive an
environment-variable key for each leaf field from "environment" tags, and
run a visitor on each leaf.  We embed the record shapes as a nested
inductive (`Node`), the aggregated error (`TraversalError`, a Go
`map[string]error` modelled as an association list), plus the two traversal
revisions present in the repository:

* `doVisit`  — visit.go, `doVisit`: stores a visitor failure by direct map
  assignment `errs.invalidKeys[err.Key] = err` (overwrites on duplicate key);
* `doVisitA` — log.go, the later `doVisit` revision: merges each failure
  with `Append` (concatenates messages on duplicate key);
* `doVisitM` — the same traversal with an explicitly-state-passing
  ("mutating") visitor, used to embed the loader, whose Go visitor writes
  into the struct through `reflect.Value`.

Strings keep Lean `String`; Go machine integers are `Nat`/`Int` with
explicit bounds where the strconv range checks of Go matter.
-/

namespace Configs

/-- A leaf value of a config record: one constructor per field kind that the
Go loader supports (`load.go`, `loader`).  `uint` carries the bit width so
the loader can dispatch to `parseAndSetUInt` with the right size. -/
inductive LeafVal where
  | bool (b : Bool)
  | int (n : Int)
  | uint (width : Nat) (n : Nat)
  | str (s : String)
  | bigInt (n : Int)
  | intSlice (xs : List Int)
  | strSlice (xs : List String)
  deriving Repr, DecidableEq

/-- A node of a config record: either a leaf field or a nested record
(a pointer-to-struct field in Go, which `doVisit` recurses into). -/
inductive Node where
  | leaf (v : LeafVal)
  | record (fields : List (String × Node))

/-- visit.go: `VisitError` — the error a visitor may return, carrying the
key it blames (`Key`) and the underlying error message. -/
structure VisitError where
  Key : String
  msg : String
  deriving Repr, DecidableEq

/-- visit.go: `Visitor` — a function acting on a struct leaf, given the
derived environment name and the leaf value. -/
abbrev Visitor := String → LeafVal → Option VisitError

/-- visit.go: `TraversalError` — `invalidKeys map[string]error`, modelled as
an association list from environment key to error message. -/
structure TraversalError where
  invalidKeys : List (String × String)
  deriving Repr, DecidableEq

/-- Go map read `m[key]`: first matching entry of the association list. -/
def findMsg : List (String × String) → String → Option String
  | [], _ => none
  | (k, v) :: rest, key => if k = key then some v else findMsg rest key

/-- Go map assignment `m[key] = v`: replace the binding if present,
otherwise add it. -/
def setAssoc : List (String × String) → String → String → List (String × String)
  | [], key, v => [(key, v)]
  | (k, w) :: rest, key, v =>
      if k = key then (k, v) :: rest else (k, w) :: setAssoc rest key v

/-- visit.go, `doVisit` error handling (lines 39-49): on a visitor failure,
allocate the `TraversalError` if needed, else assign
`errs.invalidKeys[err.Key] = err` (a Go map write, so a duplicate key
replaces the earlier entry). -/
def mergeVisit (errs : Option TraversalError) (r : Option VisitError) :
    Option TraversalError :=
  match r with
  | none => errs
  | some err =>
    match errs with
    | none => some ⟨[(err.Key, err.msg)]⟩
    | some e => some ⟨setAssoc e.invalidKeys err.Key err.msg⟩

/-- visit.go: `doVisit` — walks the fields in declaration order; a
pointer-to-struct field recurses with the extended key, any other field is a
leaf handed to the visitor; failures are merged by map assignment. -/
def doVisit (environmentSoFar : String) (fields : List (String × Node))
    (visitor : Visitor) (errs : Option TraversalError) : Option TraversalError :=
  match fields with
  | [] => errs
  | (tag, n) :: rest =>
    let environment := environmentSoFar ++ "_" ++ tag
    let errs2 :=
      match n with
      | .record sub => doVisit environment sub visitor errs
      | .leaf v => mergeVisit errs (visitor environment v)
    doVisit environmentSoFar rest visitor errs2
termination_by sizeOf fields
decreasing_by
  all_goals simp_all
  omega

/-- visit.go: `Visit` — entry point, starts `doVisit` with an empty running
key and no accumulated error. -/
def Visit (fields : List (String × Node)) (visitor : Visitor) :
    Option TraversalError :=
  doVisit "" fields visitor none

/-- visit.go: `IsValid` — true when the receiver is nil or the key is not in
`invalidKeys`. -/
def IsValid (p : Option TraversalError) (key : String) : Bool :=
  match p with
  | none => true
  | some e => !(findMsg e.invalidKeys key).isSome

/-- visit.go lines 79-100 / log.go lines 209-234: `Append` — nil grows a new
single-entry error; an existing entry for the key is replaced by
`fmt.Errorf("%v: %s", existing, msg)`, i.e. the concatenation of the old
message, the separator ": ", and the new message; otherwise the new entry is
added.  (The log.go revision takes the error through the `error` interface
and panics on foreign dynamic types; the nil and `*TraversalError` branches
embedded here are the same in both revisions.) -/
def Append (err : Option TraversalError) (key : String) (msg : String) :
    Option TraversalError :=
  match err with
  | none => some ⟨[(key, msg)]⟩
  | some e =>
    match findMsg e.invalidKeys key with
    | some existing => some ⟨setAssoc e.invalidKeys key (existing ++ ": " ++ msg)⟩
    | none => some ⟨e.invalidKeys ++ [(key, msg)]⟩

/-- log.go (later revision), `doVisit` (lines 159-182): same walk as
`doVisit` but each failure is merged with `Append`, so duplicate keys
concatenate instead of overwriting.  (That revision also treats the pointer
type `*big.Int` as terminal — such a field is a `Node.leaf` here, so only
genuine nested records use `Node.record`.) -/
def doVisitA (environmentSoFar : String) (fields : List (String × Node))
    (visitor : Visitor) (errs : Option TraversalError) : Option TraversalError :=
  match fields with
  | [] => errs
  | (tag, n) :: rest =>
    let environment := environmentSoFar ++ "_" ++ tag
    let errs2 :=
      match n with
      | .record sub => doVisitA environment sub visitor errs
      | .leaf v =>
        match visitor environment v with
        | none => errs
        | some err => Append errs err.Key err.msg
    doVisitA environmentSoFar rest visitor errs2
termination_by sizeOf fields
decreasing_by
  all_goals simp_all
  omega

/-- visit.go: `Error` — the rendering of a `TraversalError`; a nil receiver
renders as the empty string, otherwise a header line followed by one
indented line per invalid key. -/
def errorMessage (p : Option TraversalError) : String :=
  match p with
  | none => ""
  | some e =>
    e.invalidKeys.foldl
      (fun acc kv => acc ++ "  " ++ kv.1 ++ ": " ++ kv.2 ++ "\n")
      "Errors occurred while acting on the struct:\n"

/-- Specification-side definition (after the words of the spec, for
comparison with the source-translated traversals): the depth-first
enumeration of the leaves of a record, each paired with its derived
Environment Key
(running key ++ "_" ++ tag, recursing through nested records).  This is the
specification-side description of the order in which the traversal engines
visit leaves; the theorems below relate the source-translated traversals to
it. -/
def dfsLeaves (environmentSoFar : String) (fields : List (String × Node)) :
    List (String × LeafVal) :=
  match fields with
  | [] => []
  | (tag, .leaf v) :: rest =>
      (environmentSoFar ++ "_" ++ tag, v) :: dfsLeaves environmentSoFar rest
  | (tag, .record sub) :: rest =>
      dfsLeaves (environmentSoFar ++ "_" ++ tag) sub ++ dfsLeaves environmentSoFar rest
termination_by sizeOf fields
decreasing_by
  all_goals simp_all
  omega

/-- A visitor that may also update the leaf it is shown (the Go loader
mutates the field through `reflect.Value`; here the write is the first
component of the result, passed explicitly). -/
abbrev MVisitor := String → LeafVal → LeafVal × Option VisitError

/-- The traversal run with a state-passing visitor: identical walk to the
log.go `doVisit` (failures merged with `Append`), but the write the visitor makes to
each leaf is made explicit, returning the updated record next to the
accumulated error.  This embeds the loading entry points, whose Go visitor
both mutates the struct and reports failures. -/
def doVisitM (environmentSoFar : String) (fields : List (String × Node))
    (visitor : MVisitor) (errs : Option TraversalError) :
    List (String × Node) × Option TraversalError :=
  match fields with
  | [] => ([], errs)
  | (tag, n) :: rest =>
    let environment := environmentSoFar ++ "_" ++ tag
    match n with
    | .record sub =>
      let res := doVisitM environment sub visitor errs
      let r2 := doVisitM environmentSoFar rest visitor res.2
      ((tag, Node.record res.1) :: r2.1, r2.2)
    | .leaf v =>
      let vr := visitor environment v
      let errs2 :=
        match vr.2 with
        | none => errs
        | some err => Append errs err.Key err.msg
      let r2 := doVisitM environmentSoFar rest visitor errs2
      ((tag, Node.leaf vr.1) :: r2.1, r2.2)
termination_by sizeOf fields
decreasing_by
  all_goals simp_all
  omega

/-- The process environment, modelled as an association list; `lookupEnv`
plays `os.LookupEnv`. -/
abbrev Env := List (String × String)

/-- Go `os.LookupEnv`: the value of the variable if set. -/
def lookupEnv : Env → String → Option String
  | [], _ => none
  | (k, v) :: rest, key => if k = key then some v else lookupEnv rest key

/-- Numeric value of a list of decimal digit characters, most significant
first (the accumulator loop of Go `strconv.ParseUint` for base 10). -/
def digitsVal (cs : List Char) : Nat :=
  cs.foldl (fun n c => n * 10 + (c.toNat - 48)) 0

/-- Outcome of Go `strconv.ParseUint(s, 10, bitSize)`: a value, a range
error (Go then returns the clamped maximum for the bit size), or a syntax
error. -/
inductive GoUintResult where
  | ok (n : Nat)
  | rangeErr
  | syntaxErr
  deriving Repr, DecidableEq

/-- The digit loop of Go `strconv.ParseUint` base 10: scan left to right; a
non-digit character stops with a syntax error; if extending the accumulator
exceeds the maximum for the bit size, stop with a range error (Go checks
`n >= cutoff` and `n1 > maxVal` with uint64 arithmetic; over unbounded `Nat`
both collapse to the single comparison against the maximum). -/
def goParseUintLoop (cs : List Char) (maxVal : Nat) (n : Nat) : GoUintResult :=
  match cs with
  | [] => .ok n
  | c :: rest =>
    if c.isDigit then
      let n1 := n * 10 + (c.toNat - 48)
      if n1 > maxVal then .rangeErr else goParseUintLoop rest maxVal n1
    else .syntaxErr

/-- Go `strconv.ParseUint(s, 10, bitSize)` for the bit sizes the loader
uses: empty input is a syntax error, otherwise the digit loop above runs
against the maximum `2 ^ bitSize - 1`. -/
def goParseUint (s : String) (bitSize : Nat) : GoUintResult :=
  match s.data with
  | [] => .syntaxErr
  | cs => goParseUintLoop cs (2 ^ bitSize - 1) 0

/-- Go `strconv.ParseInt(s, 10, 64)` (also `strconv.Atoi` on a 64-bit
platform): an optional single sign, then a nonempty run of digits, range
checked against the signed 64-bit bounds; `none` models a non-nil error. -/
def goParseInt64 (s : String) : Option Int :=
  match s.data with
  | [] => none
  | c :: rest =>
    let neg : Bool := c = '-'
    let digits := if c = '-' || c = '+' then rest else c :: rest
    if digits = [] then none
    else if digits.all Char.isDigit then
      let m := digitsVal digits
      if neg then
        if m ≤ 2 ^ 63 then some (-(m : Int)) else none
      else
        if m ≤ 2 ^ 63 - 1 then some (m : Int) else none
    else none

/-- load.go: `parseAndSetBool` — only the literals "true" and "false" are
accepted; anything else leaves the field alone and reports
`must be "true" or "false"` under the key. -/
def parseAndSetBool (env : String) (toSet : Bool) (value : String) :
    Bool × Option VisitError :=
  if value = "true" then (true, none)
  else if value = "false" then (false, none)
  else (toSet, some ⟨env, "must be \"true\" or \"false\""⟩)

/-- load.go: `parseAndSetInt` — base-10 signed 64-bit parse via `parseInt`;
failure reports "must be an int". -/
def parseAndSetInt (env : String) (toSet : Int) (value : String) :
    Int × Option VisitError :=
  match goParseInt64 value with
  | none => (toSet, some ⟨env, "must be an int"⟩)
  | some parsed => (parsed, none)

/-- load.go lines 113-135: `parseAndSetUInt` — `strconv.ParseUint` at the
bit size of the field; a range error reports "has a max value of N" where N is
the clamped value Go returned (the maximum for the bit size); a syntax error
reports "has a min value of 0" when the whole string still parses as a
signed 64-bit integer, and the generic "must be a uintN" otherwise; on
success the field is set. -/
def parseAndSetUInt (env : String) (toSet : Nat) (value : String)
    (bitSize : Nat) : Nat × Option VisitError :=
  match goParseUint value bitSize with
  | .ok parsed => (parsed, none)
  | .rangeErr =>
      (toSet, some ⟨env, "has a max value of " ++ toString (2 ^ bitSize - 1)⟩)
  | .syntaxErr =>
      if (goParseInt64 value).isSome then
        (toSet, some ⟨env, "has a min value of 0"⟩)
      else
        (toSet, some ⟨env, "must be a uint" ++ toString bitSize⟩)

/-- load.go: `parseBigInt` / `big.Int.SetString(value, 10)` — an optional
sign followed by a nonempty digit run, no size limit. -/
def parseBigInt (value : String) : Option Int :=
  match value.data with
  | [] => none
  | c :: rest =>
    let neg : Bool := c = '-'
    let digits := if c = '-' || c = '+' then rest else c :: rest
    if digits = [] then none
    else if digits.all Char.isDigit then
      let m : Int := digitsVal digits
      some (if neg then -m else m)
    else none

/-- load.go: `parseAndSetBigInt` (and `parseAndSetBigIntPointer`, which
differs only in writing through a pointer) — failure reports
"must be a base-10 big.Int". -/
def parseAndSetBigInt (env : String) (toSet : Int) (value : String) :
    Int × Option VisitError :=
  match parseBigInt value with
  | none => (toSet, some ⟨env, "must be a base-10 big.Int"⟩)
  | some parsed => (parsed, none)

/-- Go `strings.Split(value, ",")` on the character list: the (possibly
empty) segments between commas, in order. -/
def splitComma : List Char → List (List Char)
  | [] => [[]]
  | c :: cs =>
    if c = ',' then [] :: splitComma cs
    else
      match splitComma cs with
      | [] => [[c]]
      | p :: ps => (c :: p) :: ps

/-- load.go: `parseCommaSeparatedStrings` — the empty string maps to the nil
slice; anything else is `strings.Split(value, ",")`. -/
def parseCommaSeparatedStrings (value : String) : List String :=
  if value = "" then []
  else (splitComma value.data).map (fun cs => String.mk cs)

/-- The element loop shared by both revisions of
`parseCommaSeparatedInts`: run `strconv.Atoi` on each segment in order and
stop at the index of the first segment that fails. -/
def intsFrom : List (List Char) → Nat → Except Nat (List Int)
  | [], _ => .ok []
  | e :: es, i =>
    match goParseInt64 (String.mk e) with
    | none => .error i
    | some n =>
      match intsFrom es (i + 1) with
      | .error j => .error j
      | .ok rest => .ok (n :: rest)

/-- load.go lines 190-204 (the revision with unsigned support):
`parseCommaSeparatedInts` — the empty string is the nil slice; otherwise
split on commas and `Atoi` each element, failing with
"must be a comma-separated list of ints: index i is invalid" at the first
bad element. -/
def parseCommaSeparatedInts (value : String) : Except String (List Int) :=
  if value = "" then .ok []
  else
    match intsFrom (splitComma value.data) 0 with
    | .error i =>
        .error ("must be a comma-separated list of ints: index "
          ++ toString i ++ " is invalid")
    | .ok xs => .ok xs

/-- load.go lines 355-369 (the `Loader` revision, same function in
part_001): `parseCommaSeparatedInts` — identical split and per-element
`Atoi`, but the failure message carries the whole original value:
`value "..." contains a non-int at index i`. -/
def parseCommaSeparatedIntsL (value : String) : Except String (List Int) :=
  if value = "" then .ok []
  else
    match intsFrom (splitComma value.data) 0 with
    | .error i =>
        .error ("value \"" ++ value ++ "\" contains a non-int at index "
          ++ toString i)
    | .ok xs => .ok xs

/-- load.go: `parseAndSetIntSlice` — on a parse failure the field is left
alone and the error of the parser is reported under the key. -/
def parseAndSetIntSlice (env : String) (toSet : List Int) (value : String) :
    List Int × Option VisitError :=
  match parseCommaSeparatedInts value with
  | .error e => (toSet, some ⟨env, e⟩)
  | .ok parsed => (parsed, none)

/-- load.go lines 343-353 (`Loader` revision): `parseAndSetIntSlice` wired
to the `parseCommaSeparatedInts` variant whose message carries the original
value. -/
def parseAndSetIntSliceL (env : String) (toSet : List Int) (value : String) :
    List Int × Option VisitError :=
  match parseCommaSeparatedIntsL value with
  | .error e => (toSet, some ⟨env, e⟩)
  | .ok parsed => (parsed, none)

/-- load.go lines 32-84: the body of the `loader` visitor after the prefix
has been prepended: look the key up in the environment; if unset do nothing
and report nothing; if set, dispatch on the kind of the field to the
type-specific parser.  (The `panic` branches for unsupported kinds cannot
arise: `LeafVal` enumerates exactly the supported kinds.) -/
def loadLeaf (env : Env) (environment : String) (value : LeafVal) :
    LeafVal × Option VisitError :=
  match lookupEnv env environment with
  | none => (value, none)
  | some environmentValue =>
    match value with
    | .bool b =>
      let r := parseAndSetBool environment b environmentValue
      (.bool r.1, r.2)
    | .int n =>
      let r := parseAndSetInt environment n environmentValue
      (.int r.1, r.2)
    | .uint w n =>
      let r := parseAndSetUInt environment n environmentValue w
      (.uint w r.1, r.2)
    | .str _ => (.str environmentValue, none)
    | .bigInt n =>
      let r := parseAndSetBigInt environment n environmentValue
      (.bigInt r.1, r.2)
    | .intSlice xs =>
      let r := parseAndSetIntSlice environment xs environmentValue
      (.intSlice r.1, r.2)
    | .strSlice _ => (.strSlice (parseCommaSeparatedStrings environmentValue), none)

/-- load.go: `loader` — the loading visitor; the derived name is prefixed
before the environment lookup. -/
def loader (env : Env) (pre : String) : MVisitor :=
  fun environment value => loadLeaf env (pre ++ environment) value

/-- load.go: `LoadWithPrefix` — bind the loader into the traversal.  (The
lowercase `visit` this revision calls is embedded by `doVisitM`.) -/
def LoadPrefixed (env : Env) (pre : String) (fields : List (String × Node)) :
    List (String × Node) × Option TraversalError :=
  doVisitM "" fields (loader env pre) none

/-- Occurrence check behind Go `strings.Contains`: does the needle occur as
a contiguous run starting at some position of the haystack? -/
def containsSeg (hay needle : List Char) : Bool :=
  needle.isPrefixOf hay ||
    match hay with
    | [] => false
    | _ :: t => containsSeg t needle

/-- Go `strings.Contains(s, sub)` via the character lists. -/
def goContains (s sub : String) : Bool :=
  containsSeg s.data sub.data

/-- Go `strings.ToLower` as a character-wise map (they agree on ASCII keys,
which is all the redaction check needs). -/
def goToLower (s : String) : String :=
  String.mk (s.data.map Char.toLower)

/-- log.go lines 28-39: `logUnlessPassword` — the single log line emitted
for a leaf: when the lowercased key contains "password" the value is never
formatted and the line is `key: <redacted>`; otherwise the value is
rendered after the key.  (Go prints through `log.Printf` with `%#v` or
`FormatUint`; the exact non-redacted rendering is abstracted by
`formatValue`, which the redaction claims do not depend on.) -/
def formatValue : LeafVal → String
  | .bool b => if b then "true" else "false"
  | .int n => toString n
  | .uint _ n => toString n
  | .str s => "\"" ++ s ++ "\""
  | .bigInt n => toString n
  | .intSlice xs => toString xs
  | .strSlice xs => toString xs

/-- log.go: `logUnlessPassword` as the line it writes to the sink. -/
def logUnlessPassword (environment : String) (value : LeafVal) : String :=
  if goContains (goToLower environment) "password" then
    environment ++ ": <redacted>"
  else
    environment ++ ": " ++ formatValue value

/-- log.go lines 21-26: `logger` — the logging visitor: it only writes to
the sink (the line is `logUnlessPassword (pre ++ environment) value`) and
always returns nil. -/
def logger (_pre : String) : Visitor :=
  fun _ _ => none

/-! Helper definitions and lemmas for the theorems below. -/

/-- Reading an aggregated error through the nil pointer: the message stored
under a key, if any. -/
def lookupTE (e : Option TraversalError) (key : String) : Option String :=
  match e with
  | none => none
  | some t => findMsg t.invalidKeys key

/-- The error-merging step of the Append-based traversals, factored out. -/
def mergeAppend (errs : Option TraversalError) (r : Option VisitError) :
    Option TraversalError :=
  match r with
  | none => errs
  | some err => Append errs err.Key err.msg

theorem findMsg_setAssoc (l : List (String × String)) (key v k : String) :
    findMsg (setAssoc l key v) k = if key = k then some v else findMsg l k := by
  induction l with
  | nil => simp [setAssoc, findMsg]
  | cons hd tl ih =>
    obtain ⟨k1, v1⟩ := hd
    by_cases h1 : k1 = key
    · subst h1
      by_cases h2 : k1 = k <;> simp [setAssoc, findMsg, h2]
    · by_cases h2 : k1 = k
      · subst h2
        have h3 : ¬ key = k1 := fun h => h1 h.symm
        simp [setAssoc, findMsg, h1, h3]
      · simp [setAssoc, findMsg, h1, h2, ih]

theorem findMsg_append (l1 l2 : List (String × String)) (k : String) :
    findMsg (l1 ++ l2) k =
      match findMsg l1 k with
      | some v => some v
      | none => findMsg l2 k := by
  induction l1 with
  | nil => simp [findMsg]
  | cons hd tl ih =>
    obtain ⟨k1, v1⟩ := hd
    by_cases h : k1 = k <;> simp [findMsg, h, ih]

theorem lookupTE_Append (e : Option TraversalError) (key msg k : String) :
    lookupTE (Append e key msg) k =
      if key = k then
        match lookupTE e key with
        | some old => some (old ++ ": " ++ msg)
        | none => some msg
      else lookupTE e k := by
  match e with
  | none => simp [Append, lookupTE, findMsg]
  | some t =>
    simp only [Append, lookupTE]
    match hf : findMsg t.invalidKeys key with
    | some old =>
      simp [findMsg_setAssoc, hf]
    | none =>
      by_cases h : key = k
      · subst h
        simp [findMsg_append, hf, findMsg]
      · match hg : findMsg t.invalidKeys k with
        | some v => simp [findMsg_append, hg, h]
        | none => simp [findMsg_append, hg, h, findMsg]

theorem lookupTE_mergeVisit (e : Option TraversalError) (r : Option VisitError)
    (k : String) :
    lookupTE (mergeVisit e r) k =
      match r with
      | none => lookupTE e k
      | some er => if er.Key = k then some er.msg else lookupTE e k := by
  match r with
  | none => rfl
  | some er =>
    match e with
    | none => simp [mergeVisit, lookupTE, findMsg]
    | some t => simp [mergeVisit, lookupTE, findMsg_setAssoc]

theorem lookupTE_mergeAppend (e : Option TraversalError) (r : Option VisitError)
    (k : String) :
    lookupTE (mergeAppend e r) k =
      match r with
      | none => lookupTE e k
      | some er =>
        if er.Key = k then
          match lookupTE e er.Key with
          | some old => some (old ++ ": " ++ er.msg)
          | none => some er.msg
        else lookupTE e k := by
  match r with
  | none => rfl
  | some er => simpa [mergeAppend] using lookupTE_Append e er.Key er.msg k

theorem doVisit_eq_foldl (environmentSoFar : String)
    (fields : List (String × Node)) (visitor : Visitor)
    (errs : Option TraversalError) :
    doVisit environmentSoFar fields visitor errs =
      (dfsLeaves environmentSoFar fields).foldl
        (fun e p => mergeVisit e (visitor p.1 p.2)) errs := by
  induction environmentSoFar, fields, visitor, errs using doVisit.induct with
  | case1 env vis errs => simp [doVisit, dfsLeaves]
  | case2 env vis errs tag n rest environment errs2 ih3 ih2 ih1 =>
    cases n with
    | leaf v =>
      rw [doVisit, dfsLeaves]
      simpa using ih1
    | record sub =>
      rw [doVisit, dfsLeaves]
      simp only [List.foldl_append]
      rw [← ih2]
      simpa using ih1

theorem doVisitA_eq_foldl (environmentSoFar : String)
    (fields : List (String × Node)) (visitor : Visitor)
    (errs : Option TraversalError) :
    doVisitA environmentSoFar fields visitor errs =
      (dfsLeaves environmentSoFar fields).foldl
        (fun e p => mergeAppend e (visitor p.1 p.2)) errs := by
  induction environmentSoFar, fields, visitor, errs using doVisitA.induct with
  | case1 env vis errs => simp [doVisitA, dfsLeaves]
  | case2 env vis errs tag n rest environment errs2 ih3 ih2 ih1 =>
    cases n with
    | leaf v =>
      rw [doVisitA, dfsLeaves]
      simpa [mergeAppend] using ih1
    | record sub =>
      rw [doVisitA, dfsLeaves]
      simp only [List.foldl_append]
      rw [← ih2]
      simpa using ih1

theorem doVisitM_snd_eq_foldl (environmentSoFar : String)
    (fields : List (String × Node)) (visitor : MVisitor)
    (errs : Option TraversalError) :
    (doVisitM environmentSoFar fields visitor errs).2 =
      (dfsLeaves environmentSoFar fields).foldl
        (fun e p => mergeAppend e (visitor p.1 p.2).2) errs := by
  induction environmentSoFar, fields, visitor, errs using doVisitM.induct with
  | case1 env vis errs => simp [doVisitM, dfsLeaves]
  | case2 env vis errs tag rest environment sub res ih3 ih2 ih1 =>
    rw [doVisitM, dfsLeaves]
    simp only [List.foldl_append]
    rw [← ih3]
    simpa using ih1
  | case3 env vis errs tag rest environment v vr errs2 ih1 =>
    rw [doVisitM, dfsLeaves]
    simpa [mergeAppend] using ih1

theorem doVisitM_fst_leaves (environmentSoFar : String)
    (fields : List (String × Node)) (visitor : MVisitor)
    (errs : Option TraversalError) :
    dfsLeaves environmentSoFar (doVisitM environmentSoFar fields visitor errs).1 =
      (dfsLeaves environmentSoFar fields).map
        (fun p => (p.1, (visitor p.1 p.2).1)) := by
  induction environmentSoFar, fields, visitor, errs using doVisitM.induct with
  | case1 env vis errs => simp [doVisitM, dfsLeaves]
  | case2 env vis errs tag rest environment sub res ih3 ih2 ih1 =>
    rw [doVisitM]
    simp only [dfsLeaves, List.map_append]
    rw [ih3, ih1]
  | case3 env vis errs tag rest environment v vr errs2 ih1 =>
    rw [doVisitM]
    simp only [dfsLeaves, List.map_cons]
    rw [ih1]

/-- The messages of the failures a per-leaf action `g` raises under key `k`,
in leaf order. -/
def msgsAt (g : String × LeafVal → Option VisitError) (k : String) :
    List (String × LeafVal) → List String
  | [] => []
  | p :: rest =>
    match g p with
    | some er =>
      if er.Key = k then er.msg :: msgsAt g k rest else msgsAt g k rest
    | none => msgsAt g k rest

/-- Concatenation of later messages onto an initial one, separated by ": "
(the `fmt.Errorf("%v: %s", existing, msg)` chain of `Append`). -/
def joinFrom (m : String) (ms : List String) : String :=
  ms.foldl (fun a b => a ++ ": " ++ b) m

/-- The single message a chain of `Append` calls leaves under a key, given
the messages in arrival order; none when the key never failed. -/
def joinMsgs : List String → Option String
  | [] => none
  | m :: ms => some (joinFrom m ms)

/-- `joinMsgs` continued from an optional already-recorded message. -/
def combineMsgs : Option String → List String → Option String
  | none, ms => joinMsgs ms
  | some m, ms => some (joinFrom m ms)

theorem combineMsgs_nil (o : Option String) : combineMsgs o [] = o := by
  cases o <;> rfl

theorem foldl_mergeAppend_lookup (g : String × LeafVal → Option VisitError)
    (k : String) (leaves : List (String × LeafVal)) (errs : Option TraversalError) :
    lookupTE (leaves.foldl (fun e p => mergeAppend e (g p)) errs) k =
      combineMsgs (lookupTE errs k) (msgsAt g k leaves) := by
  induction leaves generalizing errs with
  | nil => simp [msgsAt, combineMsgs_nil]
  | cons p rest ih =>
    simp only [List.foldl_cons, msgsAt]
    rw [ih]
    match hg : g p with
    | none => simp [lookupTE_mergeAppend, hg]
    | some er =>
      by_cases hk : er.Key = k
      · subst hk
        simp only [lookupTE_mergeAppend, hg, if_pos rfl]
        match ho : lookupTE errs er.Key with
        | none => simp [combineMsgs, joinMsgs]
        | some old => simp [combineMsgs, joinFrom]
      · simp [lookupTE_mergeAppend, hg, hk]

theorem foldl_mergeAppend_isSome (g : String × LeafVal → Option VisitError)
    (k : String) (leaves : List (String × LeafVal)) (errs : Option TraversalError) :
    (lookupTE (leaves.foldl (fun e p => mergeAppend e (g p)) errs) k).isSome = true ↔
      (lookupTE errs k).isSome = true ∨
        ∃ p ∈ leaves, ∃ er, g p = some er ∧ er.Key = k := by
  induction leaves generalizing errs with
  | nil => simp
  | cons p rest ih =>
    simp only [List.foldl_cons]
    rw [ih]
    match hg : g p with
    | none => simp [lookupTE_mergeAppend, hg]
    | some er =>
      by_cases hk : er.Key = k
      · subst hk
        simp only [lookupTE_mergeAppend, hg, if_pos rfl]
        match ho : lookupTE errs er.Key with
        | none => simp [hg]
        | some old => simp [hg, ho]
      · simp only [lookupTE_mergeAppend, hg, if_neg hk]
        simp only [List.mem_cons]
        constructor
        · rintro (h | h)
          · exact Or.inl h
          · obtain ⟨q, hq, er2, hg2, hk2⟩ := h
            exact Or.inr ⟨q, Or.inr hq, er2, hg2, hk2⟩
        · rintro (h | ⟨q, hq | hq, er2, hg2, hk2⟩)
          · exact Or.inl h
          · subst hq
            rw [hg] at hg2
            cases hg2
            exact absurd hk2 hk
          · exact Or.inr ⟨q, hq, er2, hg2, hk2⟩

theorem foldl_mergeVisit_isSome (g : String × LeafVal → Option VisitError)
    (k : String) (leaves : List (String × LeafVal)) (errs : Option TraversalError) :
    (lookupTE (leaves.foldl (fun e p => mergeVisit e (g p)) errs) k).isSome = true ↔
      (lookupTE errs k).isSome = true ∨
        ∃ p ∈ leaves, ∃ er, g p = some er ∧ er.Key = k := by
  induction leaves generalizing errs with
  | nil => simp
  | cons p rest ih =>
    simp only [List.foldl_cons]
    rw [ih]
    match hg : g p with
    | none => simp [lookupTE_mergeVisit, hg]
    | some er =>
      by_cases hk : er.Key = k
      · subst hk
        simp [lookupTE_mergeVisit, hg]
      · simp only [lookupTE_mergeVisit, hg, if_neg hk]
        simp only [List.mem_cons]
        constructor
        · rintro (h | h)
          · exact Or.inl h
          · obtain ⟨q, hq, er2, hg2, hk2⟩ := h
            exact Or.inr ⟨q, Or.inr hq, er2, hg2, hk2⟩
        · rintro (h | ⟨q, hq | hq, er2, hg2, hk2⟩)
          · exact Or.inl h
          · subst hq
            rw [hg] at hg2
            cases hg2
            exact absurd hk2 hk
          · exact Or.inr ⟨q, hq, er2, hg2, hk2⟩

theorem IsValid_eq_not_isSome (e : Option TraversalError) (k : String) :
    IsValid e k = !(lookupTE e k).isSome := by
  cases e <;> rfl

theorem IsValid_false_iff (e : Option TraversalError) (k : String) :
    IsValid e k = false ↔ (lookupTE e k).isSome = true := by
  rw [IsValid_eq_not_isSome]
  simp

/-- C1: every traversal revision (`doVisit` of visit.go, `doVisitA` of
log.go, and the loading traversal `doVisitM`) processes exactly the
depth-first leaf enumeration of the record, folding the answer of the visitor on
every leaf in declaration order — no failure stops the walk — and the
returned aggregated error holds an entry for a key exactly when the
visit failed under that key, so every distinct failing key is reported, not
only the first failure. -/
theorem c1_traversal_visits_every_leaf (fields : List (String × Node))
    (visitor : Visitor) (mvisitor : MVisitor) :
    (∀ environmentSoFar errs,
        doVisit environmentSoFar fields visitor errs =
          (dfsLeaves environmentSoFar fields).foldl
            (fun e p => mergeVisit e (visitor p.1 p.2)) errs) ∧
    (∀ environmentSoFar errs,
        doVisitA environmentSoFar fields visitor errs =
          (dfsLeaves environmentSoFar fields).foldl
            (fun e p => mergeAppend e (visitor p.1 p.2)) errs) ∧
    (∀ environmentSoFar errs,
        (doVisitM environmentSoFar fields mvisitor errs).2 =
          (dfsLeaves environmentSoFar fields).foldl
            (fun e p => mergeAppend e (mvisitor p.1 p.2).2) errs) ∧
    (∀ k, IsValid (Visit fields visitor) k = false ↔
        ∃ p ∈ dfsLeaves "" fields,
          ∃ er, visitor p.1 p.2 = some er ∧ er.Key = k) := by
  refine ⟨fun env errs => doVisit_eq_foldl env fields visitor errs,
          fun env errs => doVisitA_eq_foldl env fields visitor errs,
          fun env errs => doVisitM_snd_eq_foldl env fields mvisitor errs,
          fun k => ?_⟩
  rw [IsValid_false_iff, Visit, doVisit_eq_foldl]
  have h := foldl_mergeVisit_isSome (fun p => visitor p.1 p.2) k
    (dfsLeaves "" fields) none
  simpa [lookupTE] using h

/-- C2 counterexample: in the visit.go `doVisit`, two failures targeting the
same key "K" (messages "m1" then "m2") leave only the newer message — the
map assignment `errs.invalidKeys[err.Key] = err` discards "m1" instead of
concatenating. -/
theorem c2_counterexample :
    Visit [("A", .leaf (.str "x")), ("B", .leaf (.str "y"))]
        (fun e _ => if e = "_A" then some ⟨"K", "m1"⟩ else some ⟨"K", "m2"⟩) =
      some ⟨[("K", "m2")]⟩ ∧
    some ⟨[("K", "m2")]⟩ ≠
      some (TraversalError.mk [("K", "m1" ++ ": " ++ "m2")]) := by
  constructor
  · simp [Visit, doVisit, mergeVisit, setAssoc, findMsg]
  · simp

/-- C2 (amended): in the Append-based traversal (the later `doVisit` of
log.go, embedded as `doVisitA`), the entry stored under any key is exactly
the chain of all failure messages recorded for that key in traversal order,
each later message appended after a ": " separator — in particular two
failures on the same key yield older ++ ": " ++ newer and the earlier
message is never discarded.  (In the earlier visit.go `doVisit` the newer
failure replaces the older one instead; see the counterexample.) -/
theorem c2_append_traversal_concatenates (fields : List (String × Node))
    (visitor : Visitor) (k : String) :
    lookupTE (doVisitA "" fields visitor none) k =
      joinMsgs (msgsAt (fun p => visitor p.1 p.2) k (dfsLeaves "" fields)) := by
  rw [doVisitA_eq_foldl]
  have h := foldl_mergeAppend_lookup (fun p => visitor p.1 p.2) k
    (dfsLeaves "" fields) none
  simpa [lookupTE, combineMsgs] using h

/-- C5: `Append` on a nil aggregated error builds the one-entry error; on a
non-nil one it keeps every existing entry (no entry is removed or changed at
other keys) and stores the new message under the key, concatenated after the
old message with a ": " separator when the key already had one. -/
theorem c5_append_merges (key msg : String) :
    Append none key msg = some ⟨[(key, msg)]⟩ ∧
    (∀ (e : TraversalError) (k : String),
      lookupTE (Append (some e) key msg) k =
        if key = k then
          match findMsg e.invalidKeys key with
          | some old => some (old ++ ": " ++ msg)
          | none => some msg
        else findMsg e.invalidKeys k) := by
  refine ⟨rfl, fun e k => ?_⟩
  simpa [lookupTE] using lookupTE_Append (some e) key msg k

/-- C10: rendering a nil aggregated error (the `Error()` method called on a
nil receiver, both the `TraversalError` and the `LoadError` revision) yields
the empty string rather than panicking. -/
theorem c10_nil_error_renders_empty : errorMessage none = "" := rfl

theorem loadLeaf_Key (env : Env) (k : String) (v : LeafVal) (er : VisitError)
    (h : (loadLeaf env k v).2 = some er) : er.Key = k := by
  unfold loadLeaf parseAndSetBool parseAndSetInt parseAndSetUInt
    parseAndSetBigInt parseAndSetIntSlice at h
  repeat' split at h
  all_goals first
  | (cases h; rfl)
  | simp_all

theorem loadLeaf_unset (env : Env) (k : String) (v : LeafVal)
    (h : lookupEnv env k = none) : loadLeaf env k v = (v, none) := by
  unfold loadLeaf
  rw [h]

theorem loadPrefixed_isvalid_false_iff (env : Env) (pre : String)
    (fields : List (String × Node)) (k : String) :
    IsValid (LoadPrefixed env pre fields).2 k = false ↔
      ∃ p ∈ dfsLeaves "" fields,
        ((loadLeaf env (pre ++ p.1) p.2).2).isSome = true ∧ k = pre ++ p.1 := by
  rw [IsValid_false_iff, LoadPrefixed, doVisitM_snd_eq_foldl]
  have h := foldl_mergeAppend_isSome
    (fun p => ((loader env pre) p.1 p.2).2) k (dfsLeaves "" fields) none
  rw [h]
  simp only [lookupTE, Option.isSome_none, Bool.false_eq_true, false_or]
  constructor
  · rintro ⟨p, hp, er, her, hkey⟩
    refine ⟨p, hp, ?_, ?_⟩
    · simp [loader] at her
      simp [her]
    · simp [loader] at her
      rw [← hkey]
      exact loadLeaf_Key env (pre ++ p.1) p.2 er her
  · rintro ⟨p, hp, hsome, hkey⟩
    match her : (loadLeaf env (pre ++ p.1) p.2).2 with
    | none => rw [her] at hsome; simp at hsome
    | some er =>
      refine ⟨p, hp, er, by simpa [loader] using her, ?_⟩
      rw [hkey]
      exact loadLeaf_Key env (pre ++ p.1) p.2 er her

/-- C4: after a load, `IsValid` is false exactly at the keys under which the
loader recorded a failure — i.e. exactly when some leaf, at derived key
`prefix ++ path`, had a set but malformed environment value — and true at
every other key; on a nil aggregated error it is true for every key. -/
theorem c4_isvalid_characterizes_failures (env : Env) (pre : String)
    (fields : List (String × Node)) :
    (∀ k, IsValid (LoadPrefixed env pre fields).2 k = false ↔
        ∃ p ∈ dfsLeaves "" fields,
          ((loadLeaf env (pre ++ p.1) p.2).2).isSome = true ∧ k = pre ++ p.1) ∧
    (∀ k, IsValid none k = true) :=
  ⟨fun k => loadPrefixed_isvalid_false_iff env pre fields k, fun _ => rfl⟩

/-- C3: a load maps each leaf pointwise (same shape, same derived keys, each
leaf replaced by what the loader returns for it); a leaf whose derived key
is unset in the environment is returned unchanged with no error; and no
failure is ever recorded under a key that is unset in the environment. -/
theorem c3_unset_keys_leave_fields_unchanged (env : Env) (pre : String)
    (fields : List (String × Node)) :
    (dfsLeaves "" (LoadPrefixed env pre fields).1 =
        (dfsLeaves "" fields).map
          (fun p => (p.1, (loadLeaf env (pre ++ p.1) p.2).1))) ∧
    (∀ k v, lookupEnv env k = none → loadLeaf env k v = (v, none)) ∧
    (∀ k, lookupEnv env k = none →
        IsValid (LoadPrefixed env pre fields).2 k = true) := by
  refine ⟨doVisitM_fst_leaves "" fields (loader env pre) none,
          fun k v h => loadLeaf_unset env k v h, fun k h => ?_⟩
  by_contra hne
  have hfalse : IsValid (LoadPrefixed env pre fields).2 k = false := by
    revert hne
    cases IsValid (LoadPrefixed env pre fields).2 k <;> simp
  obtain ⟨p, _, hsome, hkey⟩ :=
    (loadPrefixed_isvalid_false_iff env pre fields k).mp hfalse
  subst hkey
  rw [loadLeaf_unset env (pre ++ p.1) p.2 h] at hsome
  simp at hsome

/-- Witness for C3: with only MY_A set, the leaf tagged B is untouched by
the load and stays valid. -/
theorem c3_witness :
    lookupEnv [("MY_A", "5")] "MY_B" = none ∧
    loadLeaf [("MY_A", "5")] "MY_B" (.bool true) = (.bool true, none) ∧
    IsValid (LoadPrefixed [("MY_A", "5")] "MY"
        [("A", .leaf (.int 1)), ("B", .leaf (.bool true))]).2 "MY_B" = true := by
  have h := c3_unset_keys_leave_fields_unchanged [("MY_A", "5")] "MY"
    [("A", .leaf (.int 1)), ("B", .leaf (.bool true))]
  have hu : lookupEnv [("MY_A", "5")] "MY_B" = none := by decide
  exact ⟨hu, h.2.1 "MY_B" (.bool true) hu, h.2.2 "MY_B" hu⟩

/-! Arithmetic characterization of the Go `strconv.ParseUint` digit loop. -/

theorem foldl_step_le (cs : List Char) (acc : Nat) :
    acc ≤ cs.foldl (fun n c => n * 10 + (c.toNat - 48)) acc := by
  induction cs generalizing acc with
  | nil => exact Nat.le_refl acc
  | cons c rest ih =>
    simp only [List.foldl_cons]
    exact Nat.le_trans (by omega) (ih (acc * 10 + (c.toNat - 48)))

theorem goParseUintLoop_ok (cs : List Char) (maxVal acc : Nat)
    (hd : cs.all Char.isDigit = true)
    (hle : cs.foldl (fun n c => n * 10 + (c.toNat - 48)) acc ≤ maxVal) :
    goParseUintLoop cs maxVal acc =
      .ok (cs.foldl (fun n c => n * 10 + (c.toNat - 48)) acc) := by
  induction cs generalizing acc with
  | nil => rfl
  | cons c rest ih =>
    simp only [List.all_cons, Bool.and_eq_true] at hd
    simp only [List.foldl_cons] at hle ⊢
    have hn1 : acc * 10 + (c.toNat - 48) ≤ maxVal :=
      Nat.le_trans (foldl_step_le rest (acc * 10 + (c.toNat - 48))) hle
    rw [goParseUintLoop]
    simp only [hd.1, if_true]
    rw [if_neg (by omega)]
    exact ih (acc * 10 + (c.toNat - 48)) hd.2 hle

theorem goParseUintLoop_range (cs : List Char) (maxVal acc : Nat)
    (hacc : acc ≤ maxVal)
    (hgt : (cs.takeWhile Char.isDigit).foldl
        (fun n c => n * 10 + (c.toNat - 48)) acc > maxVal) :
    goParseUintLoop cs maxVal acc = .rangeErr := by
  induction cs generalizing acc with
  | nil => simp only [List.takeWhile_nil, List.foldl_nil] at hgt; omega
  | cons c rest ih =>
    by_cases hc : c.isDigit
    · rw [List.takeWhile_cons, if_pos hc, List.foldl_cons] at hgt
      rw [goParseUintLoop]
      simp only [hc, if_true]
      by_cases h1 : acc * 10 + (c.toNat - 48) > maxVal
      · rw [if_pos h1]
      · rw [if_neg h1]
        exact ih (acc * 10 + (c.toNat - 48)) (by omega) hgt
    · rw [List.takeWhile_cons, if_neg hc, List.foldl_nil] at hgt
      omega

theorem goParseUintLoop_syntaxCase (cs : List Char) (maxVal acc : Nat)
    (hnd : cs.all Char.isDigit = false)
    (hpre : (cs.takeWhile Char.isDigit).foldl
        (fun n c => n * 10 + (c.toNat - 48)) acc ≤ maxVal) :
    goParseUintLoop cs maxVal acc = .syntaxErr := by
  induction cs generalizing acc with
  | nil => simp at hnd
  | cons c rest ih =>
    by_cases hc : c.isDigit
    · simp only [List.all_cons, hc, Bool.true_and] at hnd
      rw [List.takeWhile_cons, if_pos hc, List.foldl_cons] at hpre
      have hn1 : acc * 10 + (c.toNat - 48) ≤ maxVal :=
        Nat.le_trans (foldl_step_le _ _) hpre
      rw [goParseUintLoop]
      simp only [hc, if_true]
      rw [if_neg (by omega)]
      exact ih (acc * 10 + (c.toNat - 48)) hnd hpre
    · rw [goParseUintLoop]
      simp only [hc]
      rw [if_neg (by simp [hc])]

/-- C6 (amended): classification of `parseAndSetUInt`.  A nonempty all-digit
numeral within range sets the field with no error.  Whenever the leading
digit run alone already exceeds the maximum of the width (which covers every
out-of-range numeral but also strings with trailing garbage such as "999x"
at width 8) the failure is the "has a max value of N" message, N the maximum of the width.  Otherwise (empty, or some non-digit character, with the leading
digit run within range) the unsigned parse fails on syntax and the message
is "has a min value of 0" exactly when the whole string still parses as a
signed 64-bit integer — i.e. it carries an explicit sign, including
non-negative values such as "+5" — and the generic "must be a uintN"
message otherwise. -/
theorem c6_uint_coercion (env : String) (old : Nat) (v : String) (w : Nat) :
    (v.data ≠ [] → v.data.all Char.isDigit = true →
      digitsVal v.data ≤ 2 ^ w - 1 →
      parseAndSetUInt env old v w = (digitsVal v.data, none)) ∧
    (digitsVal (v.data.takeWhile Char.isDigit) > 2 ^ w - 1 →
      parseAndSetUInt env old v w =
        (old, some ⟨env, "has a max value of " ++ toString (2 ^ w - 1)⟩)) ∧
    ((v.data = [] ∨ v.data.all Char.isDigit = false) →
      digitsVal (v.data.takeWhile Char.isDigit) ≤ 2 ^ w - 1 →
      (goParseInt64 v).isSome = true →
      parseAndSetUInt env old v w = (old, some ⟨env, "has a min value of 0"⟩)) ∧
    ((v.data = [] ∨ v.data.all Char.isDigit = false) →
      digitsVal (v.data.takeWhile Char.isDigit) ≤ 2 ^ w - 1 →
      goParseInt64 v = none →
      parseAndSetUInt env old v w =
        (old, some ⟨env, "must be a uint" ++ toString w⟩)) := by
  refine ⟨?_, ?_, ?_, ?_⟩
  · intro hne hall hle
    match hs : v.data with
    | [] => exact absurd hs hne
    | c :: rest =>
      have hg : goParseUint v w = .ok (digitsVal v.data) := by
        unfold goParseUint
        rw [hs]
        rw [hs] at hall hle
        exact goParseUintLoop_ok (c :: rest) (2 ^ w - 1) 0 hall hle
      unfold parseAndSetUInt
      rw [hg, hs]
  · intro hgt
    match hs : v.data with
    | [] =>
      rw [hs] at hgt
      simp [digitsVal] at hgt
    | c :: rest =>
      have hg : goParseUint v w = .rangeErr := by
        unfold goParseUint
        rw [hs]
        rw [hs] at hgt
        exact goParseUintLoop_range (c :: rest) (2 ^ w - 1) 0 (Nat.zero_le _) hgt
      unfold parseAndSetUInt
      rw [hg]
  · intro hor hpre hsome
    have hg : goParseUint v w = .syntaxErr := by
      unfold goParseUint
      match hs : v.data with
      | [] => rfl
      | c :: rest =>
        rw [hs] at hor hpre
        have hall : (c :: rest).all Char.isDigit = false := by
          rcases hor with h | h
          · cases h
          · exact h
        exact goParseUintLoop_syntaxCase (c :: rest) (2 ^ w - 1) 0 hall hpre
    unfold parseAndSetUInt
    rw [hg, if_pos hsome]
  · intro hor hpre hnone
    have hg : goParseUint v w = .syntaxErr := by
      unfold goParseUint
      match hs : v.data with
      | [] => rfl
      | c :: rest =>
        rw [hs] at hor hpre
        have hall : (c :: rest).all Char.isDigit = false := by
          rcases hor with h | h
          · cases h
          · exact h
        exact goParseUintLoop_syntaxCase (c :: rest) (2 ^ w - 1) 0 hall hpre
    unfold parseAndSetUInt
    rw [hg, if_neg (by simp [hnone])]

/-- C6 counterexample: the sign-bearing but non-negative "+5" is rejected
with "has a min value of 0" (the classification in the claim would give the
generic uint message), and "999x", which is not a numeral at all, is
rejected with the max-value message because the digit run overflows before
the bad character is reached. -/
theorem c6_counterexample :
    parseAndSetUInt "K" 0 "+5" 8 =
      (0, some ⟨"K", "has a min value of 0"⟩) ∧
    parseAndSetUInt "K" 0 "999x" 8 =
      (0, some ⟨"K", "has a max value of 255"⟩) ∧
    ("has a min value of 0" : String) ≠ "must be a uint8" ∧
    ("has a max value of 255" : String) ≠ "must be a uint8" := by
  refine ⟨by decide, by decide, by decide, by decide⟩

/-- Witness for C6 at width 8: one input per branch of the
classification. -/
theorem c6_witness :
    parseAndSetUInt "K" 7 "250" 8 = (250, none) ∧
    parseAndSetUInt "K" 7 "300" 8 =
      (7, some ⟨"K", "has a max value of 255"⟩) ∧
    parseAndSetUInt "K" 7 "-7" 8 =
      (7, some ⟨"K", "has a min value of 0"⟩) ∧
    parseAndSetUInt "K" 7 "abc" 8 =
      (7, some ⟨"K", "must be a uint8"⟩) := by
  have h := c6_uint_coercion "K" 7 "250" 8
  have h300 := c6_uint_coercion "K" 7 "300" 8
  have hneg := c6_uint_coercion "K" 7 "-7" 8
  have habc := c6_uint_coercion "K" 7 "abc" 8
  refine ⟨?_, ?_, ?_, ?_⟩
  · have := h.1 (by decide) (by decide) (by decide)
    rw [this]
    decide
  · have := h300.2.1 (by decide)
    rw [this]
    decide
  · have := hneg.2.2.1 (Or.inr (by decide)) (by decide) (by decide)
    rw [this]
  · have := habc.2.2.2 (Or.inr (by decide)) (by decide) (by decide)
    rw [this]
    decide

/-! Properties of the comma split used by the slice coercions. -/

/-- Joining character-list segments back with commas (inverse description
of the split, used to state that the split yields exactly the
comma-separated segments). -/
def joinWithComma : List (List Char) → List Char
  | [] => []
  | [x] => x
  | x :: y :: rest => x ++ ',' :: joinWithComma (y :: rest)

/-- The same join at the `String` level. -/
def joinComma : List String → String
  | [] => ""
  | [x] => x
  | x :: y :: rest => x ++ "," ++ joinComma (y :: rest)

theorem splitComma_ne_nil (l : List Char) : splitComma l ≠ [] := by
  induction l with
  | nil => simp [splitComma]
  | cons c cs ih =>
    by_cases hc : c = ','
    · simp [splitComma, hc]
    · simp only [splitComma, if_neg hc]
      match h : splitComma cs with
      | [] => simp
      | p :: ps => simp

theorem joinWithComma_splitComma (l : List Char) :
    joinWithComma (splitComma l) = l := by
  induction l with
  | nil => rfl
  | cons c cs ih =>
    by_cases hc : c = ','
    · subst hc
      simp only [splitComma, if_pos rfl]
      obtain ⟨p, ps, hps⟩ := List.exists_cons_of_ne_nil (splitComma_ne_nil cs)
      rw [hps]
      rw [hps] at ih
      simp only [joinWithComma, List.nil_append]
      rw [ih]
    · simp only [splitComma, if_neg hc]
      match h : splitComma cs with
      | [] => exact absurd h (splitComma_ne_nil cs)
      | p :: ps =>
        rw [h] at ih
        match ps with
        | [] =>
          simp only [joinWithComma] at ih ⊢
          rw [ih]
        | q :: qs =>
          simp only [joinWithComma, List.cons_append] at ih ⊢
          rw [ih]

theorem splitComma_no_comma (l : List Char) :
    ∀ p ∈ splitComma l, ',' ∉ p := by
  induction l with
  | nil =>
    intro p hp
    simp [splitComma] at hp
    simp [hp]
  | cons c cs ih =>
    intro p hp
    by_cases hc : c = ','
    · simp only [splitComma, if_pos hc, List.mem_cons] at hp
      rcases hp with hp | hp
      · simp [hp]
      · exact ih p hp
    · simp only [splitComma, if_neg hc] at hp
      match h : splitComma cs with
      | [] => exact absurd h (splitComma_ne_nil cs)
      | q :: qs =>
        rw [h] at hp
        simp only [List.mem_cons] at hp
        rcases hp with hp | hp
        · subst hp
          intro hmem
          rcases List.mem_cons.mp hmem with h1 | h1
          · exact hc h1.symm
          · exact ih q (h ▸ List.mem_cons_self q qs) h1
        · exact ih p (h ▸ List.mem_cons_of_mem q hp)

theorem joinComma_map_mk (ls : List (List Char)) :
    (joinComma (ls.map (fun cs => String.mk cs))).data = joinWithComma ls := by
  induction ls with
  | nil => rfl
  | cons x tl ih =>
    match tl with
    | [] => rfl
    | y :: rest =>
      simp only [List.map_cons, joinComma, joinWithComma] at ih ⊢
      rw [String.data_append, String.data_append]
      rw [ih]
      simp

/-- C7: the string-slice coercion never fails (neither on a set nor on an
unset variable), the empty string yields the empty slice, and a non-empty
string yields exactly its comma-separated segments: joining the result with
commas restores the original string and no segment contains a comma (so no
escaping exists). -/
theorem c7_string_slice_coercion :
    parseCommaSeparatedStrings "" = [] ∧
    (∀ s : String, s ≠ "" →
      joinComma (parseCommaSeparatedStrings s) = s ∧
      ∀ t ∈ parseCommaSeparatedStrings s, ',' ∉ t.data) ∧
    (∀ env k xs, (loadLeaf env k (.strSlice xs)).2 = none) := by
  refine ⟨rfl, fun s hs => ⟨?_, ?_⟩, fun env k xs => ?_⟩
  · apply String.ext
    rw [parseCommaSeparatedStrings, if_neg hs]
    rw [joinComma_map_mk, joinWithComma_splitComma]
  · intro t ht
    rw [parseCommaSeparatedStrings, if_neg hs] at ht
    obtain ⟨p, hp, hpt⟩ := List.mem_map.mp ht
    subst hpt
    exact splitComma_no_comma s.data p hp
  · cases h : lookupEnv env k <;> simp [loadLeaf, h]

/-- Witness for C7 on "a,,b": three segments, the middle one empty, joining
them restores the input. -/
theorem c7_witness :
    joinComma (parseCommaSeparatedStrings "a,,b") = "a,,b" ∧
    parseCommaSeparatedStrings "a,,b" = ["a", "", "b"] ∧
    parseCommaSeparatedStrings "" = [] := by
  have h := c7_string_slice_coercion
  exact ⟨(h.2.1 "a,,b" (by decide)).1, by decide, h.1⟩

theorem intsFrom_first_bad (es : List (List Char)) (k i : Nat)
    (hi : i < es.length)
    (hbad : goParseInt64 (String.mk (es.get ⟨i, hi⟩)) = none)
    (hok : ∀ j (hj : j < i),
      (goParseInt64 (String.mk (es.get ⟨j, Nat.lt_trans hj hi⟩))).isSome = true) :
    intsFrom es k = .error (k + i) := by
  induction es generalizing k i with
  | nil => exact absurd hi (by simp)
  | cons e rest ih =>
    match i with
    | 0 =>
      simp only [List.get] at hbad
      simp [intsFrom, hbad]
    | i + 1 =>
      have h0 := hok 0 (Nat.succ_pos i)
      simp only [List.get] at h0
      match he : goParseInt64 (String.mk e) with
      | none => rw [he] at h0; simp at h0
      | some n =>
        have hi2 : i < rest.length := Nat.lt_of_succ_lt_succ hi
        have hbad2 : goParseInt64 (String.mk (rest.get ⟨i, hi2⟩)) = none := by
          simpa using hbad
        have hok2 : ∀ j (hj : j < i),
            (goParseInt64 (String.mk (rest.get ⟨j, Nat.lt_trans hj hi2⟩))).isSome
              = true := by
          intro j hj
          have := hok (j + 1) (Nat.succ_lt_succ hj)
          simpa using this
        have hrec := ih (k + 1) i hi2 hbad2 hok2
        simp only [intsFrom, he, hrec]
        have : k + 1 + i = k + (i + 1) := by omega
        rw [this]

/-- C8: for the integer-slice coercion of the `Loader` revision, a set value
whose comma-split has its first non-integer segment at 0-based index i (later
segments may be bad as well) produces exactly one failure for the field,
whose message carries both the whole original value and that index, and the
field keeps its prior value. -/
theorem c8_bad_int_slice_reports_first_index (k : String) (old : List Int)
    (v : String) (i : Nat) (hne : v ≠ "")
    (hi : i < (splitComma v.data).length)
    (hbad : goParseInt64 (String.mk ((splitComma v.data).get ⟨i, hi⟩)) = none)
    (hok : ∀ j (hj : j < i),
      (goParseInt64
        (String.mk ((splitComma v.data).get ⟨j, Nat.lt_trans hj hi⟩))).isSome
          = true) :
    parseAndSetIntSliceL k old v =
      (old, some ⟨k, "value \"" ++ v ++ "\" contains a non-int at index "
        ++ toString i⟩) := by
  unfold parseAndSetIntSliceL parseCommaSeparatedIntsL
  rw [if_neg hne]
  rw [intsFrom_first_bad (splitComma v.data) 0 i hi hbad hok]
  simp

/-- Witness for C8 on the value "1,foo,bar": two bad segments, a single
failure naming index 1 and the whole value, prior value kept. -/
theorem c8_witness :
    parseAndSetIntSliceL "MY_INT_SLICE" [7] "1,foo,bar" =
      ([7], some ⟨"MY_INT_SLICE",
        "value \"1,foo,bar\" contains a non-int at index 1"⟩) := by
  have h := c8_bad_int_slice_reports_first_index "MY_INT_SLICE" [7] "1,foo,bar"
    1 (by decide) (by decide) (by decide)
    (fun j hj => by
      have hj0 : j = 0 := by omega
      subst hj0
      exact (by decide :
        (goParseInt64 (String.mk
          ((splitComma ("1,foo,bar" : String).data).get
            ⟨0, by decide⟩))).isSome = true))
  rw [h]
  decide

/-- C9: a leaf key whose lowercased form contains "password" is always
logged as the fixed line key ++ ": <redacted>" — the same line for any two
field values, so the value never reaches the output — and the logger
visitor returns nil on every leaf, so a logging traversal yields no
aggregated error. -/
theorem c9_password_redaction (k : String) :
    (goContains (goToLower k) "password" = true →
      (∀ v : LeafVal, logUnlessPassword k v = k ++ ": <redacted>") ∧
      (∀ v1 v2 : LeafVal, logUnlessPassword k v1 = logUnlessPassword k v2)) ∧
    (∀ pre environment v, logger pre environment v = none) ∧
    (∀ pre fields, Visit fields (logger pre) = none) ∧
    (∀ pre fields, doVisitA "" fields (logger pre) none = none) := by
  have hfix : ∀ (leaves : List (String × LeafVal)) (errs : Option TraversalError),
      leaves.foldl (fun e p => mergeVisit e none) errs = errs := by
    intro leaves
    induction leaves with
    | nil => intro errs; rfl
    | cons p rest ih => intro errs; exact ih errs
  have hfixA : ∀ (leaves : List (String × LeafVal)) (errs : Option TraversalError),
      leaves.foldl (fun e p => mergeAppend e none) errs = errs := by
    intro leaves
    induction leaves with
    | nil => intro errs; rfl
    | cons p rest ih => intro errs; exact ih errs
  refine ⟨fun hk => ⟨fun v => ?_, fun v1 v2 => ?_⟩,
          fun pre environment v => rfl, fun pre fields => ?_, fun pre fields => ?_⟩
  · rw [logUnlessPassword, if_pos hk]
  · rw [logUnlessPassword, if_pos hk, logUnlessPassword, if_pos hk]
  · rw [Visit, doVisit_eq_foldl]
    exact hfix _ none
  · rw [doVisitA_eq_foldl]
    exact hfixA _ none

/-- Witness for C9 at the key MY_SOME_PASSWORD with two distinct secret
values. -/
theorem c9_witness :
    logUnlessPassword "MY_SOME_PASSWORD" (.str "secret") =
      "MY_SOME_PASSWORD: <redacted>" ∧
    logUnlessPassword "MY_SOME_PASSWORD" (.str "secret") =
      logUnlessPassword "MY_SOME_PASSWORD" (.str "other") ∧
    Visit [("SOME_PASSWORD", .leaf (.str "secret"))] (logger "MY") = none := by
  have h := c9_password_redaction "MY_SOME_PASSWORD"
  have hk : goContains (goToLower "MY_SOME_PASSWORD") "password" = true := by
    decide
  refine ⟨?_, (h.1 hk).2 (.str "secret") (.str "other"),
    h.2.2.1 "MY" [("SOME_PASSWORD", .leaf (.str "secret"))]⟩
  rw [(h.1 hk).1 (.str "secret")]
  decide

end Configs
